import Mathlib

/-!
Verification of the DeskSort repository (lothartj/desksort).

The repository ships the presentation layer (src/desksort/src/main.js); the
sort engine, classifier and settings store live in a Tauri backend invoked
through `invoke('scan_and_sort')`, `invoke('load_settings')` and
`invoke('save_settings')` and are not part of the source tree.  Definitions
below taken from main.js are marked with the line numbers they embed;
definitions for the backend are modelled from the specification and say so
in their doc comment.
-/

namespace DeskSort

/-- Category table, embedded from src/desksort/src/main.js lines 6-17
(`FILE_CATEGORIES`): category identifier paired with its ordered extension
list, in source order. -/
def FILE_CATEGORIES : List (String × List String) :=
  [ ("documents", [".pdf", ".docx", ".doc", ".txt", ".odt", ".rtf"]),
    ("spreadsheets", [".xls", ".xlsx", ".csv", ".ods"]),
    ("presentations", [".pptx", ".odp", ".key"]),
    ("images", [".jpg", ".jpeg", ".png", ".gif", ".bmp", ".webp", ".tiff"]),
    ("videos", [".mp4", ".mkv", ".avi", ".mov", ".webm", ".flv", ".wmv"]),
    ("audio", [".mp3", ".wav", ".aac", ".ogg", ".flac"]),
    ("archives", [".zip", ".rar", ".7z", ".tar", ".gz", ".tar.gz"]),
    ("executables", [".exe", ".msi", ".sh", ".bat", ".AppImage"]),
    ("code", [".js", ".py", ".rs", ".cpp", ".java", ".html", ".css", ".json", ".ts"]),
    ("folders", ["folder"]) ]

/-- Known category identifiers, in table order
(`Object.keys(FILE_CATEGORIES)` in the source). -/
def categoryIds : List String := FILE_CATEGORIES.map Prod.fst

/-- Association-list lookup on string-keyed maps (how a flat JS object keyed
by category behaves under property access). -/
def findA {α : Type} (k : String) : List (String × α) → Option α
  | [] => none
  | (k', v) :: rest => if k' = k then some v else findA k rest

/-- Association-list update (JS property assignment: replace if the key is
present, otherwise append). -/
def setA {α : Type} (k : String) (v : α) : List (String × α) → List (String × α)
  | [] => [(k, v)]
  | (k', v') :: rest => if k' = k then (k', v) :: rest else (k', v') :: setA k v rest

/-- Lower-case a string the way the classifier's case-insensitive comparison
does, character by character. -/
def lowerStr (s : String) : String := String.mk (s.toList.map Char.toLower)

/-- JavaScript `String.prototype.trim`: strip leading and trailing
whitespace. -/
def trimStr (s : String) : String :=
  String.mk (((s.toList.dropWhile Char.isWhitespace).reverse.dropWhile Char.isWhitespace).reverse)

/-- Default settings construction, embedded from src/desksort/src/main.js
lines 42-58 (`createDefaultSettings`): for every key of `FILE_CATEGORIES`,
in table order, map the category to `appDirPath ++ "/Sorted/" ++ category`. -/
def createDefaultSettings (appDirPath : String) : List (String × String) :=
  FILE_CATEGORIES.map (fun p => (p.1, appDirPath ++ "/Sorted/" ++ p.1))

/-- Settings-form rendering, embedded from src/desksort/src/main.js lines
80-100 (`renderCategoryMappings`): one text input per category of
`FILE_CATEGORIES`, tagged with the category (`input.dataset.category`) and
holding `settings[category] || ''`.  The pair is (category, input value). -/
def renderCategoryMappings (settings : List (String × String)) : List (String × String) :=
  FILE_CATEGORIES.map (fun p => (p.1, (findA p.1 settings).getD ""))

/-- User edits to the form between rendering and saving: each input's value
field may have been replaced, the category tag cannot.  `vals` gives the
final text of each input. -/
def editedInputs (vals : String → String) : List (String × String) :=
  FILE_CATEGORIES.map (fun p => (p.1, vals p.1))

/-- Settings collection, embedded from src/desksort/src/main.js lines
103-114 (`collectSettings`): walk the inputs in order; whenever the trimmed
value is non-empty (truthy in JS), store it under the input's category;
empty or whitespace-only inputs contribute nothing. -/
def collectSettings (inputs : List (String × String)) : List (String × String) :=
  inputs.foldl
    (fun acc p => if (trimStr p.2 = "") then acc else setA p.1 (trimStr p.2) acc) []

/-- All (category, extension) pairs of the table, flattened in table
order. -/
def allPairs : List (String × String) :=
  FILE_CATEGORIES.flatMap (fun p => p.2.map (fun e => (p.1, e)))

/-- Lower-case a character list, for the classifier's case-insensitive
comparisons. -/
def lowerChars (l : List Char) : List Char := l.map Char.toLower

/-- Number of dots in an extension string; a table entry with at least two
dots (such as ".tar.gz") is a compound (multi-part) extension. -/
def dotCount (e : String) : Nat := e.toList.count '.'

/-- Case-insensitive test that `name` ends with the extension string `e`. -/
def endsWithCI (name : List Char) (e : String) : Bool :=
  (lowerChars e.toList).isSuffixOf (lowerChars name)

/-- Modelled from the spec: the compound-extension matches of a name, i.e.
the table pairs whose extension is multi-part and a case-insensitive suffix
of the name (§4.1: compound extensions are checked by ends-with before the
last-dot heuristic). -/
def multiMatches (name : List Char) : List (String × String) :=
  allPairs.filter (fun p => decide (2 ≤ dotCount p.2) && endsWithCI name p.2)

/-- Pick a pair with the longest extension (first such pair on ties). -/
def pickLongest : List (String × String) → Option (String × String)
  | [] => none
  | m :: rest =>
    match pickLongest rest with
    | none => some m
    | some b => if m.2.length < b.2.length then some b else some m

/-- Split a name at its last dot: `splitExt l = (stem, ext)` with
`stem ++ ext = l`, `ext` beginning at the last '.' (inclusive), and
`ext = []` when the name has no dot. -/
def splitExt : List Char → List Char × List Char
  | [] => ([], [])
  | c :: rest =>
    match splitExt rest with
    | (s, []) => if c = '.' then ([], c :: rest) else (c :: s, [])
    | (s, e) => (c :: s, e)

/-- Modelled from the spec: the classifier of the backend (not under src/),
§4.1.  Compound (multi-part) table suffixes are tried first, longest match
winning; otherwise the extension is the substring from the last dot,
lower-cased, looked up case-insensitively and exactly in the table; names
with no dot or no matching entry are uncategorized.  Returns the matched
(category, table-extension) pair. -/
def classifyMatch (name : List Char) : Option (String × String) :=
  match pickLongest (multiMatches name) with
  | some m => some m
  | none =>
    let ext := (splitExt name).2
    if ext.isEmpty then none
    else allPairs.find? (fun p => lowerChars p.2.toList == lowerChars ext)

/-- Modelled from the spec: `classify(entry_name, is_directory)` (§4.1).
Directories are "folders" unconditionally; files go through the extension
table. -/
def classify (name : List Char) (isDir : Bool) : Option String :=
  if isDir then some "folders" else (classifyMatch name).map Prod.fst

/-! Helper lemmas about association lists. -/

theorem mem_setA {α : Type} {k : String} {w : α} {l : List (String × α)} {c : String} {v : α}
    (h : (c, v) ∈ setA k w l) : (c, v) ∈ l ∨ (c = k ∧ v = w) := by
  induction l with
  | nil =>
    simp [setA] at h
    exact Or.inr ⟨h.1, h.2⟩
  | cons p rest ih =>
    obtain ⟨k', v'⟩ := p
    by_cases hk : k' = k
    · simp [setA, hk] at h
      rcases h with ⟨hc, hv⟩ | h
      · exact Or.inr ⟨hc, hv⟩
      · exact Or.inl (List.mem_cons_of_mem _ h)
    · simp [setA, hk] at h
      rcases h with ⟨hc, hv⟩ | h
      · exact Or.inl (by simp [hc, hv])
      · rcases ih h with h' | h'
        · exact Or.inl (List.mem_cons_of_mem _ h')
        · exact Or.inr h'

theorem findA_setA {α : Type} (k c : String) (w : α) (l : List (String × α)) :
    findA c (setA k w l) = if k = c then some w else findA c l := by
  induction l with
  | nil => by_cases h : k = c <;> simp [setA, findA, h]
  | cons p rest ih =>
    obtain ⟨k', v'⟩ := p
    by_cases hk : k' = k
    · subst hk
      by_cases hc : k' = c <;> simp [setA, findA, hc]
    · by_cases hc : k' = c
      · subst hc
        have : ¬ k = k' := fun h => hk h.symm
        simp [setA, findA, hk, this]
      · simp [setA, findA, hk, hc, ih]

/-- Entries of a collected settings map come from a non-blank input: the key
is the input's category, the value its trimmed text. -/
theorem collectSettings_mem_aux (inputs : List (String × String)) :
    ∀ (acc : List (String × String)) (c v : String),
      (c, v) ∈ inputs.foldl
        (fun acc p => if (trimStr p.2 = "") then acc else setA p.1 (trimStr p.2) acc) acc →
      (c, v) ∈ acc ∨ ∃ raw, (c, raw) ∈ inputs ∧ v = trimStr raw ∧ trimStr raw ≠ "" := by
  induction inputs with
  | nil => intro acc c v h; exact Or.inl h
  | cons p rest ih =>
    intro acc c v h
    simp only [List.foldl_cons] at h
    by_cases hp : trimStr p.2 = ""
    · rw [if_pos hp] at h
      rcases ih acc c v h with h' | ⟨raw, hraw⟩
      · exact Or.inl h'
      · exact Or.inr ⟨raw, List.mem_cons_of_mem _ hraw.1, hraw.2⟩
    · rw [if_neg hp] at h
      rcases ih _ c v h with h' | ⟨raw, hraw⟩
      · rcases mem_setA h' with h'' | ⟨hc, hv⟩
        · exact Or.inl h''
        · exact Or.inr ⟨p.2, by simp [hc, Prod.ext_iff], hv, hp⟩
      · exact Or.inr ⟨raw, List.mem_cons_of_mem _ hraw.1, hraw.2⟩

/-- A category all of whose inputs are blank never becomes a key of the
collected settings map. -/
theorem collectSettings_absent_aux (c : String) (inputs : List (String × String)) :
    ∀ (acc : List (String × String)),
      (∀ raw, (c, raw) ∈ inputs → trimStr raw = "") →
      findA c acc = none →
      findA c (inputs.foldl
        (fun acc p => if (trimStr p.2 = "") then acc else setA p.1 (trimStr p.2) acc) acc) = none := by
  induction inputs with
  | nil => intro acc _ hacc; exact hacc
  | cons p rest ih =>
    intro acc hblank hacc
    simp only [List.foldl_cons]
    by_cases hp : trimStr p.2 = ""
    · rw [if_pos hp]
      exact ih acc (fun raw hr => hblank raw (List.mem_cons_of_mem _ hr)) hacc
    · rw [if_neg hp]
      refine ih _ (fun raw hr => hblank raw (List.mem_cons_of_mem _ hr)) ?_
      rw [findA_setA]
      by_cases hk : p.1 = c
      · exfalso
        exact hp (hblank p.2 (by simp [← hk]))
      · simpa [hk] using hacc

/-- C10: the settings mapping assembled from the form has keys among the
known category identifiers, every stored value is the trimmed, non-empty
text of that category's input, and a category whose input is blank is
omitted from the mapping. -/
theorem collectSettings_invariant (vals : String → String) :
    (∀ c v, (c, v) ∈ collectSettings (editedInputs vals) →
        c ∈ categoryIds ∧ v = trimStr (vals c) ∧ v ≠ "") ∧
    (∀ c, trimStr (vals c) = "" →
        findA c (collectSettings (editedInputs vals)) = none) := by
  constructor
  · intro c v h
    rcases collectSettings_mem_aux (editedInputs vals) [] c v h with h' | ⟨raw, hmem, hv, hne⟩
    · simp at h'
    · simp only [editedInputs, List.mem_map] at hmem
      obtain ⟨p, hp, heq⟩ := hmem
      have hc : c = p.1 := (Prod.ext_iff.mp heq.symm).1
      have hraw : raw = vals p.1 := (Prod.ext_iff.mp heq.symm).2
      refine ⟨?_, ?_, ?_⟩
      · rw [hc]; exact List.mem_map_of_mem Prod.fst hp
      · rw [hv, hraw, hc]
      · rw [hv]; exact hne
  · intro c hblank
    refine collectSettings_absent_aux c (editedInputs vals) [] ?_ rfl
    intro raw hr
    simp only [editedInputs, List.mem_map] at hr
    obtain ⟨p, _, heq⟩ := hr
    have hc : c = p.1 := (Prod.ext_iff.mp heq.symm).1
    have hraw : raw = vals p.1 := (Prod.ext_iff.mp heq.symm).2
    rw [hraw, ← hc]
    exact hblank

/-- Witness for C10 at a concrete edit: "images" set to "  /pics  ",
everything else blank. -/
theorem collectSettings_invariant_witness :
    ("images" ∈ categoryIds ∧ "/pics" = trimStr ((fun c => if c = "images" then "  /pics  " else "") "images") ∧ "/pics" ≠ "") ∧
    findA "documents" (collectSettings (editedInputs (fun c => if c = "images" then "  /pics  " else ""))) = none := by
  constructor
  · exact (collectSettings_invariant (fun c => if c = "images" then "  /pics  " else "")).1
      "images" "/pics" (by decide)
  · exact (collectSettings_invariant (fun c => if c = "images" then "  /pics  " else "")).2
      "documents" (by decide)

/-- C7: every extension string is unique across the whole category table: the
flattened list of all extension strings has no duplicate, so in particular no
extension string appears under two different categories. -/
theorem extensions_unique : (FILE_CATEGORIES.flatMap Prod.snd).Nodup := by decide

/-- C8 counterexample: it is not the case that every extension string of the
table other than the "folder" sentinel is lower-cased (the executables entry
".AppImage" is not). -/
theorem extensions_lowercase_refuted :
    ¬ (∀ p ∈ FILE_CATEGORIES, ∀ e ∈ p.2,
        (p.1 = "folders" ∧ e = "folder") ∨
        (e.toList.head? = some '.' ∧ lowerStr e = e)) := by
  intro h
  have := h ("executables", [".exe", ".msi", ".sh", ".bat", ".AppImage"]) (by decide)
    ".AppImage" (by decide)
  revert this
  decide

/-- C8 amended: every extension string of the table includes the leading dot
and is lower-cased, except the "folder" sentinel of the folders category (not
a real extension) and ".AppImage" (leading dot, but mixed case). -/
theorem extensions_lowercase_dotted_amended :
    ∀ p ∈ FILE_CATEGORIES, ∀ e ∈ p.2,
      (p.1 = "folders" ∧ e = "folder") ∨
      (e.toList.head? = some '.' ∧ (e = ".AppImage" ∨ lowerStr e = e)) := by decide

/-- Witness for C8's amended claim at the concrete entry ".pdf" of
documents. -/
theorem extensions_lowercase_dotted_amended_witness :
    ("documents" = "folders" ∧ ".pdf" = "folder") ∨
    (".pdf".toList.head? = some '.' ∧ (".pdf" = ".AppImage" ∨ lowerStr ".pdf" = ".pdf")) :=
  extensions_lowercase_dotted_amended
    ("documents", [".pdf", ".docx", ".doc", ".txt", ".odt", ".rtf"]) (by decide)
    ".pdf" (by decide)

/-- C9: when settings must be created from scratch, the default mapping is
total over the known categories: every category of the table is mapped to
`appDirPath ++ "/Sorted/" ++ category`. -/
theorem createDefaultSettings_total (appDirPath : String) :
    ∀ cat ∈ categoryIds,
      findA cat (createDefaultSettings appDirPath) = some (appDirPath ++ "/Sorted/" ++ cat) := by
  intro cat hcat
  simp only [categoryIds, FILE_CATEGORIES, List.map, List.mem_cons, List.not_mem_nil, or_false] at hcat
  rcases hcat with h | h | h | h | h | h | h | h | h | h <;>
    subst h <;> simp [createDefaultSettings, FILE_CATEGORIES, findA]

/-- Witness for C9 at the concrete app directory "/data" and category
"audio". -/
theorem createDefaultSettings_total_witness :
    findA "audio" (createDefaultSettings "/data") = some ("/data" ++ "/Sorted/" ++ "audio") :=
  createDefaultSettings_total "/data" "audio" (by decide)

theorem pickLongest_none : ∀ l : List (String × String), pickLongest l = none → l = [] := by
  intro l h
  cases l with
  | nil => rfl
  | cons a rest =>
    cases hr : pickLongest rest <;> simp [pickLongest, hr] at h
    split at h <;> simp at h

theorem pickLongest_spec (l : List (String × String)) :
    ∀ m, pickLongest l = some m → m ∈ l ∧ ∀ x ∈ l, x.2.length ≤ m.2.length := by
  induction l with
  | nil => intro m h; simp [pickLongest] at h
  | cons a rest ih =>
    intro m h
    simp only [pickLongest] at h
    cases hr : pickLongest rest with
    | none =>
      rw [hr] at h
      simp at h
      subst h
      have hrest : rest = [] := pickLongest_none rest hr
      subst hrest
      exact ⟨List.mem_singleton.mpr rfl, by intro x hx; simp at hx; subst hx; exact le_refl _⟩
    | some b =>
      rw [hr] at h
      have h : (if a.2.length < b.2.length then some b else some a) = some m := h
      by_cases hlt : a.2.length < b.2.length
      · rw [if_pos hlt] at h
        have hb := ih b hr
        simp at h
        subst h
        refine ⟨List.mem_cons_of_mem _ hb.1, ?_⟩
        intro x hx
        rcases List.mem_cons.mp hx with hx | hx
        · subst hx; exact le_of_lt hlt
        · exact hb.2 x hx
      · rw [if_neg hlt] at h
        simp at h
        subst h
        have hb := ih b hr
        refine ⟨List.mem_cons_self _ _, ?_⟩
        intro x hx
        rcases List.mem_cons.mp hx with hx | hx
        · subst hx; exact le_refl _
        · exact le_trans (hb.2 x hx) (Nat.le_of_not_lt hlt)

/-- C4: whenever a file name ends (case-insensitively) with some multi-part
suffix of the category table, the classifier answers from the compound
matches, picking one of maximal suffix length, before any last-dot fallback;
in particular "archive.tar.gz" is classified under the ".tar.gz" entry of
archives, not the ".gz" entry. -/
theorem classify_longest_suffix :
    (∀ name : List Char, multiMatches name ≠ [] →
      ∃ m, classifyMatch name = some m ∧ classify name false = some m.1 ∧
        m ∈ multiMatches name ∧
        ∀ x ∈ multiMatches name, x.2.length ≤ m.2.length) ∧
    classifyMatch ("archive.tar.gz".toList) = some ("archives", ".tar.gz") := by
  constructor
  · intro name hne
    cases hp : pickLongest (multiMatches name) with
    | none => exact absurd (pickLongest_none _ hp) hne
    | some m =>
      refine ⟨m, ?_, ?_, (pickLongest_spec _ m hp).1, (pickLongest_spec _ m hp).2⟩
      · simp [classifyMatch, hp]
      · simp [classify, classifyMatch, hp]
  · decide

/-- Witness for C4 at the concrete name "archive.tar.gz". -/
theorem classify_longest_suffix_witness :
    ∃ m, classifyMatch ("archive.tar.gz".toList) = some m ∧
      classify ("archive.tar.gz".toList) false = some m.1 ∧
      m ∈ multiMatches ("archive.tar.gz".toList) ∧
      ∀ x ∈ multiMatches ("archive.tar.gz".toList), x.2.length ≤ m.2.length :=
  classify_longest_suffix.1 ("archive.tar.gz".toList) (by decide)

/-! Decimal rendering of the numeric disambiguator, and the collision-safe
name resolution the mover uses (modelled from the spec, §4.3 step 5). -/

/-- Decimal digits of a number, most significant first. -/
def natDigits (n : Nat) : List Nat :=
  if h : n < 10 then [n] else natDigits (n / 10) ++ [n % 10]
termination_by n
decreasing_by exact Nat.div_lt_self (by omega) (by omega)

/-- Reassemble a digit list into the number it denotes. -/
def undigits (l : List Nat) : Nat := l.foldl (fun a d => 10 * a + d) 0

theorem undigits_natDigits (n : Nat) : undigits (natDigits n) = n := by
  induction n using Nat.strong_induction_on with
  | _ n ih =>
    by_cases h : n < 10
    · rw [natDigits, dif_pos h]
      simp [undigits]
    · rw [natDigits, dif_neg h]
      have h10 : n / 10 < n := Nat.div_lt_self (by omega) (by omega)
      simp only [undigits, List.foldl_append, List.foldl_cons, List.foldl_nil]
      have := ih _ h10
      simp only [undigits] at this
      rw [this]
      omega

theorem natDigits_inj {a b : Nat} (h : natDigits a = natDigits b) : a = b := by
  have := congrArg undigits h
  rwa [undigits_natDigits, undigits_natDigits] at this

theorem natDigits_lt (n : Nat) : ∀ d ∈ natDigits n, d < 10 := by
  induction n using Nat.strong_induction_on with
  | _ n ih =>
    intro d hd
    by_cases h : n < 10
    · rw [natDigits, dif_pos h] at hd
      simp at hd
      omega
    · rw [natDigits, dif_neg h] at hd
      rcases List.mem_append.mp hd with hd | hd
      · exact ih _ (Nat.div_lt_self (by omega) (by omega)) d hd
      · simp at hd
        omega

/-- Decimal digit as a character ('0' is code point 48). -/
def digitChar10 (d : Nat) : Char := Char.ofNat (48 + d)

/-- Inverse of `digitChar10` on actual digits. -/
def charDigit (c : Char) : Nat := c.toNat - 48

theorem charDigit_digitChar10 : ∀ d < 10, charDigit (digitChar10 d) = d := by decide

/-- Decimal rendering of a number as characters, e.g. `natChars 12 = "12"`. -/
def natChars (n : Nat) : List Char := (natDigits n).map digitChar10

theorem natChars_map_charDigit (n : Nat) : (natChars n).map charDigit = natDigits n := by
  rw [natChars, List.map_map]
  have h : ∀ x ∈ natDigits n, (charDigit ∘ digitChar10) x = id x := fun x hx =>
    charDigit_digitChar10 x (natDigits_lt n x hx)
  rw [List.map_congr_left h, List.map_id]

theorem natChars_inj {a b : Nat} (h : natChars a = natChars b) : a = b := by
  apply natDigits_inj
  rw [← natChars_map_charDigit a, ← natChars_map_charDigit b, h]

/-- Candidate name number `k` for a colliding entry name: the numeric
disambiguator " (k)" inserted between the base name and the extension, e.g.
`cand "report.pdf" 1 = "report (1).pdf"`. -/
def cand (name : List Char) (k : Nat) : List Char :=
  (splitExt name).1 ++ ' ' :: '(' :: (natChars k ++ ')' :: (splitExt name).2)

theorem cand_inj (name : List Char) {k j : Nat} (h : cand name k = cand name j) : k = j := by
  unfold cand at h
  have h1 := List.append_cancel_left h
  simp only [List.cons.injEq, true_and] at h1
  exact natChars_inj (List.append_cancel_right h1)

theorem splitExt_append : ∀ l : List Char, (splitExt l).1 ++ (splitExt l).2 = l := by
  intro l
  induction l with
  | nil => rfl
  | cons c rest ih =>
    rw [splitExt]
    cases hs : splitExt rest with
    | mk s e =>
      rw [hs] at ih
      cases e with
      | nil =>
        by_cases hc : c = '.'
        · simp [hc]
        · simp only [hc, if_false]
          simp only [List.cons_append, List.append_nil] at ih ⊢
          rw [ih]
      | cons e0 erest =>
        simp only [List.cons_append, List.cons.injEq, true_and]
        exact ih

/-- Bounded search for a free candidate name: try `cand name k`,
`cand name (k+1)`, ... while the candidate is taken, giving up when the fuel
runs out (the spec's best-effort "collision-resolution exhausted"). -/
def findFree (existing : List (List Char)) (name : List Char) : Nat → Nat → Option (List Char)
  | 0, _ => none
  | fuel + 1, k =>
    if cand name k ∈ existing then findFree existing name fuel (k + 1)
    else some (cand name k)

theorem findFree_spec (existing : List (List Char)) (name : List Char) :
    ∀ fuel k r, findFree existing name fuel k = some r →
      r ∉ existing ∧
      ∃ i, k ≤ i ∧ r = cand name i ∧ ∀ j, k ≤ j → j < i → cand name j ∈ existing := by
  intro fuel
  induction fuel with
  | zero => intro k r h; simp [findFree] at h
  | succ fuel ih =>
    intro k r h
    rw [findFree] at h
    by_cases hmem : cand name k ∈ existing
    · rw [if_pos hmem] at h
      obtain ⟨hne, i, hki, hr, hall⟩ := ih (k + 1) r h
      refine ⟨hne, i, by omega, hr, ?_⟩
      intro j hkj hji
      by_cases hjk : j = k
      · exact hjk ▸ hmem
      · exact hall j (by omega) hji
    · rw [if_neg hmem] at h
      obtain rfl : cand name k = r := by injection h
      exact ⟨hmem, k, le_refl _, rfl, fun j h1 h2 => absurd (lt_of_le_of_lt h1 h2) (lt_irrefl _)⟩

theorem findFree_some_of_exists (existing : List (List Char)) (name : List Char) :
    ∀ fuel k, (∃ i, k ≤ i ∧ i < k + fuel ∧ cand name i ∉ existing) →
      ∃ r, findFree existing name fuel k = some r := by
  intro fuel
  induction fuel with
  | zero => intro k ⟨i, h1, h2, _⟩; omega
  | succ fuel ih =>
    intro k ⟨i, h1, h2, h3⟩
    rw [findFree]
    by_cases hmem : cand name k ∈ existing
    · rw [if_pos hmem]
      refine ih (k + 1) ⟨i, ?_, by omega, h3⟩
      rcases Nat.eq_or_lt_of_le h1 with rfl | hlt
      · exact absurd hmem h3
      · omega
    · rw [if_neg hmem]
      exact ⟨_, rfl⟩

/-- Pigeonhole: among the candidates `cand name 1 .. cand name (n+1)` with
`n` the number of existing entries, at least one is free, because distinct
disambiguators give distinct names. -/
theorem exists_fresh_cand (existing : List (List Char)) (name : List Char) :
    ∃ i, 1 ≤ i ∧ i ≤ existing.length + 1 ∧ cand name i ∉ existing := by
  by_contra hc
  push_neg at hc
  have hsub : ((List.range (existing.length + 1)).map (fun i => cand name (i + 1))) ⊆ existing := by
    intro x hx
    simp only [List.mem_map, List.mem_range] at hx
    obtain ⟨i, hi, rfl⟩ := hx
    exact hc (i + 1) (by omega) (by omega)
  have hinj : Function.Injective (fun i => cand name (i + 1)) := by
    intro a b hab
    have := cand_inj name hab
    omega
  have hnd := (List.nodup_range (existing.length + 1)).map hinj
  have hle := (hnd.subperm hsub).length_le
  simp at hle

/-- Modelled from the spec: collision-safe target-name resolution of the
backend mover (not under src/), §4.3 step 5.  The plain name is used when
free; otherwise numeric disambiguators are tried in increasing order,
re-checking existence for each candidate, with bounded (best-effort)
fuel. -/
def resolveName (existing : List (List Char)) (name : List Char) : Option (List Char) :=
  if name ∈ existing then findFree existing name (existing.length + 1) 1
  else some name

theorem resolveName_isSome (existing : List (List Char)) (name : List Char) :
    ∃ r, resolveName existing name = some r := by
  rw [resolveName]
  by_cases h : name ∈ existing
  · rw [if_pos h]
    obtain ⟨i, h1, h2, h3⟩ := exists_fresh_cand existing name
    exact findFree_some_of_exists existing name _ 1 ⟨i, h1, by omega, h3⟩
  · rw [if_neg h]
    exact ⟨_, rfl⟩

theorem resolveName_fresh {existing : List (List Char)} {name r : List Char}
    (h : resolveName existing name = some r) : r ∉ existing := by
  rw [resolveName] at h
  by_cases hm : name ∈ existing
  · rw [if_pos hm] at h
    exact (findFree_spec existing name _ 1 r h).1
  · rw [if_neg hm] at h
    obtain rfl : name = r := by injection h
    exact hm

theorem resolveName_collision {existing : List (List Char)} {name r : List Char}
    (hmem : name ∈ existing) (h : resolveName existing name = some r) :
    ∃ i, 1 ≤ i ∧ r = cand name i ∧ ∀ j, 1 ≤ j → j < i → cand name j ∈ existing := by
  rw [resolveName, if_pos hmem] at h
  exact (findFree_spec existing name _ 1 r h).2

theorem resolveName_no_collision {existing : List (List Char)} {name : List Char}
    (hmem : name ∉ existing) : resolveName existing name = some name := by
  rw [resolveName, if_neg hmem]

/-! The sort engine, modelled from the spec (§4.3): the backend behind
`invoke('scan_and_sort')` is not under src/.  The filesystem is shallow:
the source directory is a list of entries, destination directories an
association list from path to entry list.  Host I/O failures are an
environment parameter (`Oracle`) fixed for the run, keyed by destination
path and entry name. -/

/-- A directory entry of the scanned source: name, kind, and abstract
content standing for the file bytes or the directory subtree. -/
structure Entry where
  name : List Char
  isDir : Bool
  content : Nat
deriving DecidableEq, Repr

/-- Host-environment failure behaviour for one pass: whether creating a
given destination directory fails, and whether moving a given entry into a
given destination fails. -/
structure Oracle where
  mkdirFails : String → Bool
  moveFails : String → List Char → Bool

/-- State threaded through one sort pass: entries left in the source,
destination directories, and the two append-only result lists (moved
descriptions and per-entry errors, each carrying the entry name). -/
structure SortState where
  kept : List Entry
  dests : List (String × List Entry)
  moved : List (List Char × String)
  errors : List (List Char × String)
deriving DecidableEq, Repr

/-- Modelled from the spec: resolve-or-create a destination directory
(§4.3 step 4); creation of a missing directory can fail, which is a
per-entry error. -/
def ensureDir (g : Oracle) (dest : String) (ds : List (String × List Entry)) :
    Option (List (String × List Entry)) :=
  match findA dest ds with
  | some _ => some ds
  | none => if g.mkdirFails dest then none else some (setA dest [] ds)

/-- Modelled from the spec: processing of a single scanned entry by the
backend engine (§4.3 steps 2-6): classify, skip silently when uncategorized
or unconfigured, otherwise ensure the destination directory and move with
collision-safe renaming; every failure is recorded with the entry name and
leaves the entry in place. -/
def processEntry (settings : List (String × String)) (g : Oracle)
    (st : SortState) (e : Entry) : SortState :=
  match classify e.name e.isDir with
  | none => { st with kept := st.kept ++ [e] }
  | some cat =>
    match findA cat settings with
    | none => { st with kept := st.kept ++ [e] }
    | some dest =>
      match ensureDir g dest st.dests with
      | none =>
        { st with kept := st.kept ++ [e],
                  errors := st.errors ++ [(e.name, "could not create destination directory")] }
      | some ds =>
        let dir := (findA dest ds).getD []
        match resolveName (dir.map Entry.name) e.name with
        | none =>
          { st with kept := st.kept ++ [e], dests := ds,
                    errors := st.errors ++ [(e.name, "collision resolution exhausted")] }
        | some fname =>
          if g.moveFails dest e.name then
            { st with kept := st.kept ++ [e], dests := ds,
                      errors := st.errors ++ [(e.name, "move failed")] }
          else
            { st with dests := setA dest (dir ++ [{ e with name := fname }]) ds,
                      moved := st.moved ++ [(e.name, dest)] }

/-- Modelled from the spec: `scan_and_sort` (§4.3, §6).  The listing of the
source directory is `none` when the source cannot be read, which is the one
fatal error; otherwise every entry is processed in order and the
accumulated result is returned. -/
def scan_and_sort (g : Oracle) (settings : List (String × String))
    (listing : Option (List Entry)) (ds : List (String × List Entry)) :
    Except String SortState :=
  match listing with
  | none => Except.error "source directory unreadable"
  | some es => Except.ok (es.foldl (processEntry settings g) ⟨[], ds, [], []⟩)

/-! The settings store, modelled from the spec (§4.2, §6): the backend
behind `invoke('load_settings')` / `invoke('save_settings')` is not under
src/.  The persisted document location holds either nothing or one whole
flat mapping; save replaces the entire document. -/

/-- Failure taxonomy of the settings store (§7). -/
inductive SettingsError
  | NotFound
  | Corrupt
  | IOFailure
deriving DecidableEq, Repr

/-- Modelled from the spec: `save_settings(M)` persists the given mapping as
the entire replacement document (§4.2, §6); the result is the new store
contents. -/
def save_settings (m : List (String × String)) : Option (List (String × String)) :=
  some m

/-- Modelled from the spec: `load_settings()` returns the persisted mapping,
or NotFound when no document exists (§4.2, §6, §7). -/
def load_settings (store : Option (List (String × String))) :
    Except SettingsError (List (String × String)) :=
  match store with
  | none => Except.error SettingsError.NotFound
  | some m => Except.ok m

/-- C3: saving a mapping and then loading returns a mapping equal to the one
saved. -/
theorem load_after_save (m : List (String × String)) :
    load_settings (save_settings m) = Except.ok m := rfl

/-! Lemmas about destination-directory resolution. -/

theorem ensureDir_none_iff (g : Oracle) (dest : String) (ds : List (String × List Entry)) :
    ensureDir g dest ds = none ↔ (findA dest ds = none ∧ g.mkdirFails dest = true) := by
  rw [ensureDir]
  cases hf : findA dest ds with
  | none =>
    by_cases hm : g.mkdirFails dest
    · simp [hm]
    · simp [hm]
  | some d => simp

theorem ensureDir_found {g : Oracle} {dest : String} {ds ds' : List (String × List Entry)}
    (h : ensureDir g dest ds = some ds') : ∃ dir, findA dest ds' = some dir := by
  rw [ensureDir] at h
  cases hf : findA dest ds with
  | none =>
    rw [hf] at h
    by_cases hm : g.mkdirFails dest
    · simp [hm] at h
    · simp [hm] at h
      subst h
      exact ⟨[], by rw [findA_setA, if_pos rfl]⟩
  | some d =>
    rw [hf] at h
    simp at h
    subst h
    exact ⟨d, hf⟩

theorem ensureDir_some_findA {g : Oracle} {dest : String} {ds ds' : List (String × List Entry)}
    (h : ensureDir g dest ds = some ds') :
    ∀ k, findA k ds' = findA k ds ∨
      (k = dest ∧ findA k ds = none ∧ g.mkdirFails k = false ∧ findA k ds' = some []) := by
  intro k
  rw [ensureDir] at h
  cases hf : findA dest ds with
  | none =>
    rw [hf] at h
    by_cases hm : g.mkdirFails dest
    · simp [hm] at h
    · simp [hm] at h
      subst h
      rw [findA_setA]
      by_cases hk : dest = k
      · subst hk
        exact Or.inr ⟨rfl, hf, by simpa using hm, by simp⟩
      · rw [if_neg hk]
        exact Or.inl rfl
  | some d =>
    rw [hf] at h
    simp at h
    subst h
    exact Or.inl rfl

theorem ensureDir_some_cond {g : Oracle} {dest : String} {ds ds' : List (String × List Entry)}
    (h : ensureDir g dest ds = some ds') :
    findA dest ds ≠ none ∨ g.mkdirFails dest = false := by
  rw [ensureDir] at h
  cases hf : findA dest ds with
  | none =>
    rw [hf] at h
    by_cases hm : g.mkdirFails dest
    · simp [hm] at h
    · exact Or.inr (by simpa using hm)
  | some d => exact Or.inl (by simp [hf])

/-- Exhaustive description of one engine step: an entry is either skipped
silently (uncategorized or unconfigured), kept with a directory-creation
error, kept with a move error, or moved under a collision-free name appended
to the destination directory. -/
theorem processEntry_cases (settings : List (String × String)) (g : Oracle)
    (st : SortState) (e : Entry) :
    (processEntry settings g st e = { st with kept := st.kept ++ [e] } ∧
       (classify e.name e.isDir = none ∨
        ∃ cat, classify e.name e.isDir = some cat ∧ findA cat settings = none)) ∨
    (∃ cat dest, classify e.name e.isDir = some cat ∧ findA cat settings = some dest ∧
       findA dest st.dests = none ∧ g.mkdirFails dest = true ∧
       processEntry settings g st e =
         { st with kept := st.kept ++ [e],
                   errors := st.errors ++ [(e.name, "could not create destination directory")] }) ∨
    (∃ cat dest ds' dir, classify e.name e.isDir = some cat ∧ findA cat settings = some dest ∧
       ensureDir g dest st.dests = some ds' ∧ findA dest ds' = some dir ∧
       g.moveFails dest e.name = true ∧
       processEntry settings g st e =
         { st with kept := st.kept ++ [e], dests := ds',
                   errors := st.errors ++ [(e.name, "move failed")] }) ∨
    (∃ cat dest ds' dir fname, classify e.name e.isDir = some cat ∧
       findA cat settings = some dest ∧
       ensureDir g dest st.dests = some ds' ∧ findA dest ds' = some dir ∧
       resolveName (dir.map Entry.name) e.name = some fname ∧
       g.moveFails dest e.name = false ∧
       processEntry settings g st e =
         { st with dests := setA dest (dir ++ [{ e with name := fname }]) ds',
                   moved := st.moved ++ [(e.name, dest)] }) := by
  cases hcl : classify e.name e.isDir with
  | none => exact Or.inl ⟨by simp [processEntry, hcl], Or.inl rfl⟩
  | some cat =>
    cases hcfg : findA cat settings with
    | none => exact Or.inl ⟨by simp [processEntry, hcl, hcfg], Or.inr ⟨cat, rfl, hcfg⟩⟩
    | some dest =>
      cases hdir : ensureDir g dest st.dests with
      | none =>
        obtain ⟨hn, hm⟩ := (ensureDir_none_iff g dest st.dests).mp hdir
        exact Or.inr (Or.inl ⟨cat, dest, rfl, hcfg, hn, hm,
          by simp [processEntry, hcl, hcfg, hdir]⟩)
      | some ds' =>
        obtain ⟨dir, hfound⟩ := ensureDir_found hdir
        cases hres : resolveName (dir.map Entry.name) e.name with
        | none =>
          obtain ⟨r, hr⟩ := resolveName_isSome (dir.map Entry.name) e.name
          rw [hr] at hres
          exact absurd hres (by simp)
        | some fname =>
          cases hmv : g.moveFails dest e.name with
          | true =>
            refine Or.inr (Or.inr (Or.inl ⟨cat, dest, ds', dir, rfl, hcfg, hdir, hfound, hmv, ?_⟩))
            simp [processEntry, hcl, hcfg, hdir, hfound, hres, hmv]
          | false =>
            refine Or.inr (Or.inr (Or.inr ⟨cat, dest, ds', dir, fname, rfl, hcfg, hdir, hfound,
              hres, hmv, ?_⟩))
            simp [processEntry, hcl, hcfg, hdir, hfound, hres, hmv]

/-- New destination-directory keys can only appear where directory creation
does not fail. -/
theorem processEntry_dests_keys (settings : List (String × String)) (g : Oracle)
    (st : SortState) (e : Entry) :
    ∀ k, findA k (processEntry settings g st e).dests ≠ none →
      findA k st.dests ≠ none ∨ g.mkdirFails k = false := by
  intro k hk
  rcases processEntry_cases settings g st e with
    ⟨heq, _⟩ |
    ⟨cat, dest, hcl, hcfg, hn, hm, heq⟩ |
    ⟨cat, dest, ds', dir, hcl, hcfg, hdir, hfound, hmv, heq⟩ |
    ⟨cat, dest, ds', dir, fname, hcl, hcfg, hdir, hfound, hres, hmv, heq⟩
  · rw [heq] at hk
    exact Or.inl hk
  · rw [heq] at hk
    exact Or.inl hk
  · rw [heq] at hk
    rcases ensureDir_some_findA hdir k with h | ⟨_, _, h, _⟩
    · rw [h] at hk
      exact Or.inl hk
    · exact Or.inr h
  · rw [heq] at hk
    simp only at hk
    rw [findA_setA] at hk
    by_cases hkd : dest = k
    · subst hkd
      rcases ensureDir_some_cond hdir with h | h
      · exact Or.inl h
      · exact Or.inr h
    · rw [if_neg hkd] at hk
      rcases ensureDir_some_findA hdir k with h | ⟨_, _, h, _⟩
      · rw [h] at hk
        exact Or.inl hk
      · exact Or.inr h

/-- An uncategorized or unconfigured entry is appended to the kept list and
nothing else changes. -/
theorem processEntry_skip {settings : List (String × String)} {g : Oracle}
    {st : SortState} {e : Entry}
    (h : classify e.name e.isDir = none ∨
      ∃ cat, classify e.name e.isDir = some cat ∧ findA cat settings = none) :
    processEntry settings g st e = { st with kept := st.kept ++ [e] } := by
  rcases h with h | ⟨cat, h1, h2⟩
  · simp [processEntry, h]
  · simp [processEntry, h1, h2]

/-- One step either leaves the error list unchanged or appends exactly one
error carrying the processed entry's name. -/
theorem processEntry_errors_shape (settings : List (String × String)) (g : Oracle) :
    ∀ (st : SortState) (e : Entry),
      (processEntry settings g st e).errors = st.errors ∨
      ∃ r, (processEntry settings g st e).errors = st.errors ++ [(e.name, r)] := by
  intro st e
  rcases processEntry_cases settings g st e with
    ⟨heq, _⟩ | ⟨_, _, _, _, _, _, heq⟩ | ⟨_, _, _, _, _, _, _, _, _, heq⟩ |
    ⟨_, _, _, _, _, _, _, _, _, _, _, heq⟩
  · rw [heq]; exact Or.inl rfl
  · rw [heq]; exact Or.inr ⟨_, rfl⟩
  · rw [heq]; exact Or.inr ⟨_, rfl⟩
  · rw [heq]; exact Or.inl rfl

/-- The error list of a pass extends the starting error list. -/
theorem foldl_errors_suffix (settings : List (String × String)) (g : Oracle) :
    ∀ (es : List Entry) (st : SortState),
      ∃ extra, (List.foldl (processEntry settings g) st es).errors = st.errors ++ extra := by
  intro es
  induction es with
  | nil => intro st; exact ⟨[], (List.append_nil _).symm⟩
  | cons a rest ih =>
    intro st
    simp only [List.foldl_cons]
    obtain ⟨extra, hx⟩ := ih (processEntry settings g st a)
    rcases processEntry_errors_shape settings g st a with h | ⟨r, h⟩
    · exact ⟨extra, by rw [hx, h]⟩
    · exact ⟨(a.name, r) :: extra, by rw [hx, h]; simp⟩

/-- Entries already kept stay kept through a step. -/
theorem processEntry_kept_mono (settings : List (String × String)) (g : Oracle)
    (st : SortState) (e : Entry) :
    ∀ x ∈ st.kept, x ∈ (processEntry settings g st e).kept := by
  intro x hx
  rcases processEntry_cases settings g st e with
    ⟨heq, _⟩ | ⟨_, _, _, _, _, _, heq⟩ | ⟨_, _, _, _, _, _, _, _, _, heq⟩ |
    ⟨_, _, _, _, _, _, _, _, _, _, _, heq⟩ <;>
    rw [heq]
  · exact List.mem_append_left _ hx
  · exact List.mem_append_left _ hx
  · exact List.mem_append_left _ hx
  · exact hx

/-- Entries already kept stay kept through the rest of the pass. -/
theorem foldl_kept_mono (settings : List (String × String)) (g : Oracle) :
    ∀ (es : List Entry) (st : SortState) (x : Entry), x ∈ st.kept →
      x ∈ (List.foldl (processEntry settings g) st es).kept := by
  intro es
  induction es with
  | nil => intro st x hx; exact hx
  | cons a rest ih =>
    intro st x hx
    simp only [List.foldl_cons]
    exact ih _ x (processEntry_kept_mono settings g st a x hx)

/-- A new error can only carry the name of the entry just processed, and
only when that entry was classified and configured. -/
theorem processEntry_error_new (settings : List (String × String)) (g : Oracle)
    (st : SortState) (e : Entry) :
    ∀ n r, (n, r) ∈ (processEntry settings g st e).errors →
      (n, r) ∈ st.errors ∨
      (n = e.name ∧
        ∃ cat dest, classify e.name e.isDir = some cat ∧ findA cat settings = some dest) := by
  intro n r h
  rcases processEntry_cases settings g st e with
    ⟨heq, _⟩ | ⟨cat, dest, hcl, hcfg, _, _, heq⟩ |
    ⟨cat, dest, _, _, hcl, hcfg, _, _, _, heq⟩ |
    ⟨_, _, _, _, _, _, _, _, _, _, _, heq⟩
  · rw [heq] at h
    exact Or.inl h
  · rw [heq] at h
    simp only [List.mem_append] at h
    rcases h with h | h
    · exact Or.inl h
    · simp at h
      exact Or.inr ⟨h.1, cat, dest, hcl, hcfg⟩
  · rw [heq] at h
    simp only [List.mem_append] at h
    rcases h with h | h
    · exact Or.inl h
    · simp at h
      exact Or.inr ⟨h.1, cat, dest, hcl, hcfg⟩
  · rw [heq] at h
    exact Or.inl h

/-- Every error of a whole pass names a scanned entry that was classified
and configured. -/
theorem foldl_error_origin (settings : List (String × String)) (g : Oracle) :
    ∀ (es : List Entry) (st : SortState) (n : List Char) (r : String),
      (n, r) ∈ (List.foldl (processEntry settings g) st es).errors →
      (n, r) ∈ st.errors ∨
      ∃ e' ∈ es, n = e'.name ∧
        ∃ cat dest, classify e'.name e'.isDir = some cat ∧ findA cat settings = some dest := by
  intro es
  induction es with
  | nil => intro st n r h; exact Or.inl h
  | cons a rest ih =>
    intro st n r h
    simp only [List.foldl_cons] at h
    rcases ih _ n r h with h' | ⟨e', he', hrest⟩
    · rcases processEntry_error_new settings g st a n r h' with h'' | h''
      · exact Or.inl h''
      · exact Or.inr ⟨a, List.mem_cons_self _ _, h''.1, h''.2⟩
    · exact Or.inr ⟨e', List.mem_cons_of_mem _ he', hrest⟩

/-- Destination directories only grow during a step: present entries stay
present. -/
theorem processEntry_dests_grow (settings : List (String × String)) (g : Oracle)
    (st : SortState) (e : Entry) :
    ∀ k d, findA k st.dests = some d →
      ∃ d', findA k (processEntry settings g st e).dests = some d' ∧ ∀ x ∈ d, x ∈ d' := by
  intro k d hk
  rcases processEntry_cases settings g st e with
    ⟨heq, _⟩ | ⟨_, _, _, _, _, _, heq⟩ |
    ⟨cat, dest, ds', dir, hcl, hcfg, hdir, hfound, hmv, heq⟩ |
    ⟨cat, dest, ds', dir, fname, hcl, hcfg, hdir, hfound, hres, hmv, heq⟩
  · rw [heq]
    exact ⟨d, hk, fun x hx => hx⟩
  · rw [heq]
    exact ⟨d, hk, fun x hx => hx⟩
  · rw [heq]
    rcases ensureDir_some_findA hdir k with h | ⟨_, hnone, _, _⟩
    · exact ⟨d, by rw [h]; exact hk, fun x hx => hx⟩
    · rw [hnone] at hk
      exact absurd hk (by simp)
  · rw [heq]
    simp only []
    by_cases hkd : dest = k
    · subst hkd
      rcases ensureDir_some_findA hdir dest with h | ⟨_, hnone, _, _⟩
      · rw [hk] at h
        rw [hfound] at h
        have hdd : dir = d := by injection h
        subst hdd
        refine ⟨dir ++ [{ e with name := fname }], ?_, fun x hx => List.mem_append_left _ hx⟩
        rw [findA_setA, if_pos rfl]
      · rw [hnone] at hk
        exact absurd hk (by simp)
    · rcases ensureDir_some_findA hdir k with h | ⟨hkd', _, _, _⟩
      · refine ⟨d, ?_, fun x hx => hx⟩
        rw [findA_setA, if_neg hkd, h, hk]
      · exact absurd hkd'.symm hkd

/-- Destination directories only grow during the whole pass. -/
theorem foldl_dests_grow (settings : List (String × String)) (g : Oracle) :
    ∀ (es : List Entry) (st : SortState) (k : String) (d : List Entry),
      findA k st.dests = some d →
      ∃ d', findA k (List.foldl (processEntry settings g) st es).dests = some d' ∧
        ∀ x ∈ d, x ∈ d' := by
  intro es
  induction es with
  | nil => intro st k d hk; exact ⟨d, hk, fun x hx => hx⟩
  | cons a rest ih =>
    intro st k d hk
    simp only [List.foldl_cons]
    obtain ⟨d1, hd1, hs1⟩ := processEntry_dests_grow settings g st a k d hk
    obtain ⟨d2, hd2, hs2⟩ := ih _ k d1 hd1
    exact ⟨d2, hd2, fun x hx => hs2 x (hs1 x hx)⟩

/-- The persistent reasons an entry is left in the source by a pass:
uncategorized, unconfigured category, impossible destination directory, or a
failing move. -/
def Skips (settings : List (String × String)) (g : Oracle)
    (ds1 : List (String × List Entry)) (e : Entry) : Prop :=
  classify e.name e.isDir = none ∨
  (∃ cat, classify e.name e.isDir = some cat ∧ findA cat settings = none) ∨
  (∃ cat dest, classify e.name e.isDir = some cat ∧ findA cat settings = some dest ∧
     ((findA dest ds1 = none ∧ g.mkdirFails dest = true) ∨ g.moveFails dest e.name = true))

theorem Skips_mono {settings : List (String × String)} {g : Oracle}
    {ds ds' : List (String × List Entry)} {e : Entry}
    (hsk : Skips settings g ds e)
    (hkeys : ∀ k, findA k ds' ≠ none → findA k ds ≠ none ∨ g.mkdirFails k = false) :
    Skips settings g ds' e := by
  rcases hsk with h | h | ⟨cat, dest, hcl, hcfg, hA | hB⟩
  · exact Or.inl h
  · exact Or.inr (Or.inl h)
  · refine Or.inr (Or.inr ⟨cat, dest, hcl, hcfg, Or.inl ⟨?_, hA.2⟩⟩)
    by_contra hne
    rcases hkeys dest hne with h' | h'
    · exact h' hA.1
    · simp [hA.2] at h'
  · exact Or.inr (Or.inr ⟨cat, dest, hcl, hcfg, Or.inr hB⟩)

/-- After a pass, every entry still in the source satisfies a persistent
skip reason with respect to the final destination directories. -/
theorem foldl_kept_Skips (settings : List (String × String)) (g : Oracle) :
    ∀ (es : List Entry) (st : SortState),
      (∀ e ∈ st.kept, Skips settings g st.dests e) →
      ∀ e ∈ (List.foldl (processEntry settings g) st es).kept,
        Skips settings g (List.foldl (processEntry settings g) st es).dests e := by
  intro es
  induction es with
  | nil => intro st h; exact h
  | cons a rest ih =>
    intro st h
    simp only [List.foldl_cons]
    apply ih
    intro e he
    have hkeys := processEntry_dests_keys settings g st a
    have hstep : ∀ e', Skips settings g st.dests e' →
        Skips settings g (processEntry settings g st a).dests e' :=
      fun e' hs => Skips_mono hs hkeys
    rcases processEntry_cases settings g st a with
      ⟨heq, hsk⟩ | ⟨cat, dest, hcl, hcfg, hn, hm, heq⟩ |
      ⟨cat, dest, ds', dir, hcl, hcfg, hdir, hfound, hmv, heq⟩ |
      ⟨cat, dest, ds', dir, fname, hcl, hcfg, hdir, hfound, hres, hmv, heq⟩
    · rw [heq] at he
      simp only [List.mem_append] at he
      rcases he with he | he
      · exact hstep e (h e he)
      · simp at he
        subst he
        refine hstep e ?_
        rcases hsk with h1 | ⟨cat, h1, h2⟩
        · exact Or.inl h1
        · exact Or.inr (Or.inl ⟨cat, h1, h2⟩)
    · rw [heq] at he
      simp only [List.mem_append] at he
      rcases he with he | he
      · exact hstep e (h e he)
      · simp at he
        subst he
        exact hstep e (Or.inr (Or.inr ⟨cat, dest, hcl, hcfg, Or.inl ⟨hn, hm⟩⟩))
    · rw [heq] at he
      simp only [List.mem_append] at he
      rcases he with he | he
      · exact hstep e (h e he)
      · simp at he
        subst he
        exact hstep e (Or.inr (Or.inr ⟨cat, dest, hcl, hcfg, Or.inr hmv⟩))
    · rw [heq] at he
      exact hstep e (h e he)

/-- A pass over entries all of which satisfy a persistent skip reason
performs no move. -/
theorem foldl_no_move (settings : List (String × String)) (g : Oracle)
    (ds1 : List (String × List Entry)) :
    ∀ (es : List Entry) (st : SortState),
      (∀ e ∈ es, Skips settings g ds1 e) →
      (∀ k, findA k st.dests ≠ none → findA k ds1 ≠ none ∨ g.mkdirFails k = false) →
      (List.foldl (processEntry settings g) st es).moved = st.moved := by
  intro es
  induction es with
  | nil => intro st _ _; rfl
  | cons a rest ih =>
    intro st hes hinv
    simp only [List.foldl_cons]
    have hkeys := processEntry_dests_keys settings g st a
    have hinv' : ∀ k, findA k (processEntry settings g st a).dests ≠ none →
        findA k ds1 ≠ none ∨ g.mkdirFails k = false := by
      intro k hk
      rcases hkeys k hk with h | h
      · exact hinv k h
      · exact Or.inr h
    rw [ih _ (fun e he => hes e (List.mem_cons_of_mem _ he)) hinv']
    rcases processEntry_cases settings g st a with
      ⟨heq, _⟩ | ⟨cat, dest, hcl, hcfg, hn, hm, heq⟩ |
      ⟨cat, dest, ds', dir, hcl, hcfg, hdir, hfound, hmv, heq⟩ |
      ⟨cat, dest, ds', dir, fname, hcl, hcfg, hdir, hfound, hres, hmv, heq⟩
    · rw [heq]
    · rw [heq]
    · rw [heq]
    · exfalso
      have hsk := hes a (List.mem_cons_self a rest)
      rcases hsk with h1 | ⟨cat', h1, h2⟩ | ⟨cat', dest', h1, h2, hA | hB⟩
      · rw [hcl] at h1
        exact absurd h1 (by simp)
      · rw [hcl] at h1
        injection h1 with h1
        subst h1
        rw [hcfg] at h2
        exact absurd h2 (by simp)
      · rw [hcl] at h1
        injection h1 with h1
        subst h1
        rw [hcfg] at h2
        injection h2 with h2
        subst h2
        rcases ensureDir_some_cond hdir with h | h
        · rcases hinv dest h with h' | h'
          · exact h' hA.1
          · simp [hA.2] at h'
        · simp [hA.2] at h
      · rw [hcl] at h1
        injection h1 with h1
        subst h1
        rw [hcfg] at h2
        injection h2 with h2
        subst h2
        rw [hmv] at hB
        exact Bool.false_ne_true hB

/-- C2: running the pass twice in succession, with the source holding
exactly what the first pass left there and no external change, moves nothing
the second time: the second moved-list is empty. -/
theorem scan_and_sort_idempotent (g : Oracle) (settings : List (String × String))
    (es : List Entry) (ds : List (String × List Entry)) :
    ∃ st1 st2,
      scan_and_sort g settings (some es) ds = Except.ok st1 ∧
      scan_and_sort g settings (some st1.kept) st1.dests = Except.ok st2 ∧
      st2.moved = [] := by
  refine ⟨List.foldl (processEntry settings g) ⟨[], ds, [], []⟩ es, _, rfl, rfl, ?_⟩
  set st1 := List.foldl (processEntry settings g) ⟨[], ds, [], []⟩ es with hst1
  have hsk : ∀ e ∈ st1.kept, Skips settings g st1.dests e := by
    apply foldl_kept_Skips
    intro e he
    simp at he
  have hmv := foldl_no_move settings g st1.dests st1.kept ⟨[], st1.dests, [], []⟩ hsk
    (fun k hk => Or.inl hk)
  simpa using hmv

/-- C6: an entry with an unrecognized extension (classification none) or an
unconfigured category is left in place by the pass — it is still in the
source afterwards, unchanged — and no error is recorded for it. -/
theorem skipped_entry_untouched (g : Oracle) (settings : List (String × String))
    (es : List Entry) (ds : List (String × List Entry)) (st1 : SortState) (e : Entry)
    (hrun : scan_and_sort g settings (some es) ds = Except.ok st1)
    (he : e ∈ es)
    (hnodup : (es.map Entry.name).Nodup)
    (hskip : classify e.name e.isDir = none ∨
      ∃ cat, classify e.name e.isDir = some cat ∧ findA cat settings = none) :
    e ∈ st1.kept ∧ ∀ r, (e.name, r) ∉ st1.errors := by
  have hst1 : List.foldl (processEntry settings g) ⟨[], ds, [], []⟩ es = st1 := by
    have h' : Except.ok (ε := String) (List.foldl (processEntry settings g) ⟨[], ds, [], []⟩ es)
        = Except.ok st1 := hrun
    injection h'
  subst hst1
  constructor
  · obtain ⟨es1, es2, rfl⟩ := List.append_of_mem he
    rw [List.foldl_append, List.foldl_cons]
    apply foldl_kept_mono
    rw [processEntry_skip hskip]
    simp
  · intro r hr
    rcases foldl_error_origin settings g es ⟨[], ds, [], []⟩ e.name r hr with
      h | ⟨e', he', hn, cat, dest, hcl', hcfg'⟩
    · simp at h
    · have hee : e = e' := List.inj_on_of_nodup_map hnodup he he' hn
      subst hee
      rcases hskip with h1 | ⟨cat0, h1, h2⟩
      · rw [hcl'] at h1
        exact absurd h1 (by simp)
      · rw [h1] at hcl'
        injection hcl' with hcl'
        subst hcl'
        rw [hcfg'] at h2
        exact absurd h2 (by simp)

/-- Witness for C6: an entry "unknownfile.xyz" with an unrecognized
extension stays in the source and produces no error. -/
theorem skipped_entry_untouched_witness :
    (⟨"unknownfile.xyz".toList, false, 5⟩ : Entry) ∈
      (List.foldl (processEntry [("documents", "/docs")] ⟨fun _ => false, fun _ _ => false⟩)
        ⟨[], [], [], []⟩ [⟨"unknownfile.xyz".toList, false, 5⟩]).kept ∧
    ∀ r, ("unknownfile.xyz".toList, r) ∉
      (List.foldl (processEntry [("documents", "/docs")] ⟨fun _ => false, fun _ _ => false⟩)
        ⟨[], [], [], []⟩ [⟨"unknownfile.xyz".toList, false, 5⟩]).errors :=
  skipped_entry_untouched ⟨fun _ => false, fun _ _ => false⟩ [("documents", "/docs")]
    [⟨"unknownfile.xyz".toList, false, 5⟩] [] _ ⟨"unknownfile.xyz".toList, false, 5⟩
    rfl (by decide) (by decide) (Or.inl (by decide))

/-- C5: a per-entry failure is appended to the error list with the entry
name and a reason and does not abort the remaining entries — the pass still
returns a result, obtained by processing the rest from the post-failure
state, and the recorded error is in its error list; the pass as a whole
fails exactly when the initial listing of the source cannot be performed;
and in general each step appends at most one error, always carrying the
processed entry's name. -/
theorem scan_and_sort_error_isolation
    (g : Oracle) (settings : List (String × String)) (ds : List (String × List Entry))
    (es1 : List Entry) (e : Entry) (es2 : List Entry) (r : String)
    (hfail : (processEntry settings g
        (List.foldl (processEntry settings g) ⟨[], ds, [], []⟩ es1) e).errors
      = (List.foldl (processEntry settings g) ⟨[], ds, [], []⟩ es1).errors ++ [(e.name, r)]) :
    (∃ st, scan_and_sort g settings (some (es1 ++ e :: es2)) ds = Except.ok st ∧
       st = List.foldl (processEntry settings g)
              (processEntry settings g
                (List.foldl (processEntry settings g) ⟨[], ds, [], []⟩ es1) e) es2 ∧
       (e.name, r) ∈ st.errors) ∧
    scan_and_sort g settings none ds = Except.error "source directory unreadable" ∧
    (∀ st' e', (processEntry settings g st' e').errors = st'.errors ∨
       ∃ r', (processEntry settings g st' e').errors = st'.errors ++ [(e'.name, r')]) := by
  refine ⟨⟨_, ?_, rfl, ?_⟩, rfl, processEntry_errors_shape settings g⟩
  · simp [scan_and_sort, List.foldl_append]
  · obtain ⟨extra, hx⟩ := foldl_errors_suffix settings g es2
      (processEntry settings g (List.foldl (processEntry settings g) ⟨[], ds, [], []⟩ es1) e)
    rw [hx, hfail]
    simp

/-- Witness for C5: directory creation fails for "a.txt" while "b.txt" is
still processed afterwards, and the fatal case is listing failure. -/
theorem scan_and_sort_error_isolation_witness :
    (∃ st, scan_and_sort ⟨fun _ => true, fun _ _ => false⟩ [("documents", "/docs")]
        (some ([] ++ (⟨"a.txt".toList, false, 0⟩ : Entry) :: [⟨"b.txt".toList, false, 1⟩])) []
        = Except.ok st ∧
       st = List.foldl (processEntry [("documents", "/docs")] ⟨fun _ => true, fun _ _ => false⟩)
              (processEntry [("documents", "/docs")] ⟨fun _ => true, fun _ _ => false⟩
                (List.foldl (processEntry [("documents", "/docs")] ⟨fun _ => true, fun _ _ => false⟩)
                  ⟨[], [], [], []⟩ []) ⟨"a.txt".toList, false, 0⟩) [⟨"b.txt".toList, false, 1⟩] ∧
       ("a.txt".toList, "could not create destination directory") ∈ st.errors) ∧
    scan_and_sort ⟨fun _ => true, fun _ _ => false⟩ [("documents", "/docs")] none []
      = Except.error "source directory unreadable" ∧
    (∀ st' e', (processEntry [("documents", "/docs")] ⟨fun _ => true, fun _ _ => false⟩ st' e').errors
        = st'.errors ∨
       ∃ r', (processEntry [("documents", "/docs")] ⟨fun _ => true, fun _ _ => false⟩ st' e').errors
        = st'.errors ++ [(e'.name, r')]) :=
  scan_and_sort_error_isolation ⟨fun _ => true, fun _ _ => false⟩ [("documents", "/docs")] []
    [] ⟨"a.txt".toList, false, 0⟩ [⟨"b.txt".toList, false, 1⟩]
    "could not create destination directory" (by decide)

/-- C1: when an entry is moved into a destination directory that already
holds an entry of the same name, the pass keeps every pre-existing
destination entry untouched (never overwritten or deleted), and the moved
entry ends up in the destination with its content unaltered under the
smallest free numeric disambiguator " (i)" inserted before the extension. -/
theorem collision_move_preserves (g : Oracle) (settings : List (String × String))
    (ds : List (String × List Entry)) (es1 : List Entry) (e : Entry) (es2 : List Entry)
    (cat dest : String) (ds' : List (String × List Entry)) (dir : List Entry)
    (hcl : classify e.name e.isDir = some cat)
    (hcfg : findA cat settings = some dest)
    (hdir : ensureDir g dest
      (List.foldl (processEntry settings g) ⟨[], ds, [], []⟩ es1).dests = some ds')
    (hfound : findA dest ds' = some dir)
    (hmv : g.moveFails dest e.name = false)
    (hcoll : e.name ∈ dir.map Entry.name) :
    ∃ st fname i,
      scan_and_sort g settings (some (es1 ++ e :: es2)) ds = Except.ok st ∧
      fname = cand e.name i ∧ 1 ≤ i ∧
      (∀ j, 1 ≤ j → j < i → cand e.name j ∈ dir.map Entry.name) ∧
      fname ∉ dir.map Entry.name ∧
      ∃ dirEnd, findA dest st.dests = some dirEnd ∧
        (∀ x ∈ dir, x ∈ dirEnd) ∧ { e with name := fname } ∈ dirEnd := by
  obtain ⟨fname, hres⟩ := resolveName_isSome (dir.map Entry.name) e.name
  obtain ⟨i, hi1, hfi, hmin⟩ := resolveName_collision hcoll hres
  have hstep : processEntry settings g
      (List.foldl (processEntry settings g) ⟨[], ds, [], []⟩ es1) e =
      { List.foldl (processEntry settings g) ⟨[], ds, [], []⟩ es1 with
        dests := setA dest (dir ++ [{ e with name := fname }]) ds',
        moved := (List.foldl (processEntry settings g) ⟨[], ds, [], []⟩ es1).moved
          ++ [(e.name, dest)] } := by
    simp [processEntry, hcl, hcfg, hdir, hfound, hres, hmv]
  have hafter : findA dest (processEntry settings g
      (List.foldl (processEntry settings g) ⟨[], ds, [], []⟩ es1) e).dests
      = some (dir ++ [{ e with name := fname }]) := by
    rw [hstep]
    simp only []
    rw [findA_setA, if_pos rfl]
  obtain ⟨dirEnd, hde, hsub⟩ := foldl_dests_grow settings g es2 _ dest _ hafter
  refine ⟨_, fname, i, ?_, hfi, hi1, hmin, resolveName_fresh hres, dirEnd, hde,
    fun x hx => hsub x (List.mem_append_left _ hx), hsub _ (by simp)⟩
  simp [scan_and_sort, List.foldl_append]

/-- Witness for C1: a source "x.txt" moved into a destination already
holding an "x.txt" with different content. -/
theorem collision_move_preserves_witness :
    ∃ st fname i,
      scan_and_sort ⟨fun _ => false, fun _ _ => false⟩ [("documents", "/docs")]
        (some ([] ++ (⟨"x.txt".toList, false, 9⟩ : Entry) :: []))
        [("/docs", [⟨"x.txt".toList, false, 7⟩])] = Except.ok st ∧
      fname = cand "x.txt".toList i ∧ 1 ≤ i ∧
      (∀ j, 1 ≤ j → j < i →
        cand "x.txt".toList j ∈ ([⟨"x.txt".toList, false, 7⟩] : List Entry).map Entry.name) ∧
      fname ∉ ([⟨"x.txt".toList, false, 7⟩] : List Entry).map Entry.name ∧
      ∃ dirEnd, findA "/docs" st.dests = some dirEnd ∧
        (∀ x ∈ ([⟨"x.txt".toList, false, 7⟩] : List Entry), x ∈ dirEnd) ∧
        ({ name := fname, isDir := false, content := 9 } : Entry) ∈ dirEnd :=
  collision_move_preserves ⟨fun _ => false, fun _ _ => false⟩ [("documents", "/docs")]
    [("/docs", [⟨"x.txt".toList, false, 7⟩])] [] ⟨"x.txt".toList, false, 9⟩ []
    "documents" "/docs" [("/docs", [⟨"x.txt".toList, false, 7⟩])] [⟨"x.txt".toList, false, 7⟩]
    (by decide) (by decide) (by decide) (by decide) (by decide) (by decide)

end DeskSort
